import Mathlib

/-!
# Verification of the LC-parser peak-detection and quantification engine

A shallow embedding of the core analytical routines of `src/LCParser.py`
(`__findpeaks__`, `elution_volume`, `filter_peaks`, `get_times`) together
with proofs settling the specification claims about them.

Series values are modelled as rationals (`ℚ`): every comparison, `max`,
subtraction, product and sum appearing in the engine is exact on the
inputs the claims quantify over.  Missing data (`n.a.`, parsed to IEEE NaN
by `parse_raw_chromatogram_data` in `src/utils.py`) is modelled separately
by the `FVal` type, whose arithmetic propagates the NaN value exactly as
float arithmetic does.
-/

namespace LCParser

/-- One detected peak, mirroring the parallel arrays
`(left_thresh, right_thresh, heights, peak_indices)` built by
`__findpeaks__`.  The threshold arrays are allocated with `np.empty` and a
slot is only written when the descent loop finds a strictly smaller value,
so an entry that was never written is modelled as `none`. -/
structure PeakRecord where
  leftThreshold : Option ℕ
  rightThreshold : Option ℕ
  height : ℚ
  peakIndex : ℕ
  deriving DecidableEq

/-- Python's builtin `max(a, b)`: keeps the first argument unless the
second compares strictly greater.  (On `ℚ` this agrees with `max`, which
is kept out of the executable definitions because the lattice instance
does not reduce in the kernel.) -/
def pymax (a b : ℚ) : ℚ :=
  if a < b then b else a

/-- Candidate test from `__findpeaks__`:
`is_peak = np.r_[True, values[1:] > values[:-1]] & np.r_[values[:-1] > values[1:], True] & (values > height)`.
Index 0 gets `True` in the first factor and index `N-1` gets `True` in the
second factor; interior indices require strict `>` on both sides. -/
def is_peak (values : List ℚ) (height : ℚ) (i : ℕ) : Bool :=
  (decide (i = 0) || decide (values.getD (i - 1) 0 < values.getD i 0)) &&
  (decide (i = values.length - 1) || decide (values.getD (i + 1) 0 < values.getD i 0)) &&
  decide (height < values.getD i 0)

/-- `peak_indices = np.where(is_peak)[0]`: the indices where `is_peak`
holds, in ascending order. -/
def candidates (values : List ℚ) (height : ℚ) : List ℕ :=
  (List.range values.length).filter (fun i => is_peak values height i)

/-- First boundary-removal step of `__findpeaks__`:
`if 0 in peak_indices: peak_indices = np.delete(peak_indices, 0)` removes
the element at position 0 (the candidate list is ascending, so position 0
holds the value 0 whenever 0 is present). -/
def candidatesNoZero (values : List ℚ) (height : ℚ) : List ℕ :=
  if 0 ∈ candidates values height then (candidates values height).drop 1
  else candidates values height

/-- Second boundary-removal step of `__findpeaks__`:
`if len(values)-1 in peak_indices: peak_indices = np.delete(len(values)-1, 0)`
replaces the whole array by `np.delete(N-1, 0)`, which is the empty array
(deleting position 0 of the 0-d array `N-1`). -/
def prunedCandidates (values : List ℚ) (height : ℚ) : List ℕ :=
  if values.length - 1 ∈ candidatesNoZero values height then []
  else candidatesNoZero values height

/-- Leftward descent of `__findpeaks__`: starting at `left = peak_i` with
`min_left = values[peak_i]`, walk toward index 0 while
`values[left] <= min_left`; on each strictly smaller value record it as
the new minimum and store the index.  Arguments: current index, running
minimum, recorded threshold so far; the walk stops when the value rises
above the running minimum or after index 0 has been processed. -/
def descendLeft (values : List ℚ) : ℕ → ℚ → Option ℕ → ℚ × Option ℕ
  | 0, minL, lt =>
      if values.getD 0 0 ≤ minL then
        if values.getD 0 0 < minL then (values.getD 0 0, some 0) else (minL, lt)
      else (minL, lt)
  | left + 1, minL, lt =>
      if values.getD (left + 1) 0 ≤ minL then
        if values.getD (left + 1) 0 < minL then
          descendLeft values left (values.getD (left + 1) 0) (some (left + 1))
        else descendLeft values left minL lt
      else (minL, lt)

/-- Rightward descent of `__findpeaks__`, fuelled: the Python loop runs
`while right <= len(values)-1 and values[right] <= min_right`; calling
with `fuel = values.length - right` makes fuel exhaustion coincide
exactly with `right` passing the last index. -/
def descendRightAux (values : List ℚ) : ℕ → ℕ → ℚ → Option ℕ → ℚ × Option ℕ
  | 0, _, minR, rt => (minR, rt)
  | fuel + 1, right, minR, rt =>
      if values.getD right 0 ≤ minR then
        if values.getD right 0 < minR then
          descendRightAux values fuel (right + 1) (values.getD right 0) (some right)
        else descendRightAux values fuel (right + 1) minR rt
      else (minR, rt)

/-- The per-peak body of `__findpeaks__`: both descents plus the
baseline-corrected height `values[peak_i] - max(min_left, min_right)`. -/
def mkRecord (values : List ℚ) (p : ℕ) : PeakRecord :=
  let dl := descendLeft values p (values.getD p 0) none
  let dr := descendRightAux values (values.length - p) p (values.getD p 0) none
  { leftThreshold := dl.2
    rightThreshold := dr.2
    height := values.getD p 0 - pymax dl.1 dr.1
    peakIndex := p }

/-- `LCParser.__findpeaks__(values, height)`: candidate selection,
boundary removal, then thresholds and heights for each surviving peak. -/
def findpeaks (values : List ℚ) (height : ℚ) : List PeakRecord :=
  (prunedCandidates values height).map (mkRecord values)

/-- Python/numpy lookup `times[j-1]` for `j : ℕ`: the Python index `j - 1`
is non-negative except at `j = 0`, where it is `-1` and negative indexing
wraps to the last entry (`elution_volume` reaches `times[-1]` when a
peak's left threshold is 0). -/
def pyPrev (times : List ℚ) (j : ℕ) : ℚ :=
  if j = 0 then times.getD (times.length - 1) 0 else times.getD (j - 1) 0

/-- The inner loop of `LCParser.elution_volume` for one peak:
`for idx, peak_height in enumerate(self.values[left:right]):
   peak_area += max(peak_height, 0) * (self.times[left+idx] - self.times[left+idx-1])`.
The slice `values[left:right]` has `min right N - left` entries and its
`idx`-th entry is `values[left+idx]`. -/
def peakArea (values times : List ℚ) (left right : ℕ) : ℚ :=
  ((List.range (min right values.length - left)).map (fun idx =>
    pymax (values.getD (left + idx) 0) 0 *
      (times.getD (left + idx) 0 - pyPrev times (left + idx)))).sum

/-- `LCParser.elution_volume(peak_data)`: the sum of the per-peak Riemann
sums.  `peak_data` is consumed as `zip(*peak_data)` with pattern
`left, right, _`, so only the threshold columns matter; they are passed
here as a list of `(left, right)` spans. -/
def elution_volume (values times : List ℚ) (spans : List (ℕ × ℕ)) : ℚ :=
  (spans.map (fun s => peakArea values times s.1 s.2)).sum

/-- The spans `(left_thresh[i], right_thresh[i])` that the callers in
`main.py` and `LCParser.main` hand from `peaks()` to `elution_volume`.  A
threshold slot never written by the descent loops (modelled `none`) holds
arbitrary `np.empty` garbage; `0` stands in for it here, and every claim
using this bridge first establishes that the slots are in fact written. -/
def peakSpans (peaks : List PeakRecord) : List (ℕ × ℕ) :=
  peaks.map (fun r => (r.leftThreshold.getD 0, r.rightThreshold.getD 0))

/-- A float64 cell of the parsed chromatogram: either NaN (the parse of
the `n.a.` sentinel in `parse_raw_chromatogram_data`) or a finite value. -/
inductive FVal where
  | nan : FVal
  | fin : ℚ → FVal
  deriving DecidableEq

namespace FVal

/-- Float addition restricted to the values at hand: NaN absorbs. -/
def add : FVal → FVal → FVal
  | fin a, fin b => fin (a + b)
  | _, _ => nan

/-- Float subtraction: NaN absorbs. -/
def sub : FVal → FVal → FVal
  | fin a, fin b => fin (a - b)
  | _, _ => nan

/-- Float multiplication on the values at hand: NaN absorbs (in IEEE
arithmetic `0 * NaN = NaN` as well). -/
def mul : FVal → FVal → FVal
  | fin a, fin b => fin (a * b)
  | _, _ => nan

/-- Python's `max(x, 0)` on a float `x`: comparisons against NaN are
false, so `max` keeps its NaN first argument. -/
def pymax0 : FVal → FVal
  | nan => nan
  | fin a => fin (pymax a 0)

end FVal

/-- `times[j-1]` over float cells, as in `pyPrev`. -/
def pyPrevF (times : List FVal) (j : ℕ) : FVal :=
  if j = 0 then times.getD (times.length - 1) FVal.nan else times.getD (j - 1) FVal.nan

/-- The per-peak Riemann sum of `elution_volume` over float cells that may
hold NaN; same loop as `peakArea`, accumulating with `FVal.add` from
`peak_area = 0.0`. -/
def peakAreaF (values times : List FVal) (left right : ℕ) : FVal :=
  (((List.range (min right values.length - left)).map (fun idx =>
    FVal.mul (FVal.pymax0 (values.getD (left + idx) FVal.nan))
      (FVal.sub (times.getD (left + idx) FVal.nan) (pyPrevF times (left + idx)))))).foldl
    FVal.add (FVal.fin 0)

/-- `LCParser.elution_volume` over float cells that may hold NaN,
accumulating with `FVal.add` from `elution_volume = 0.0`. -/
def elution_volumeF (values times : List FVal) (spans : List (ℕ × ℕ)) : FVal :=
  ((spans.map (fun s => peakAreaF values times s.1 s.2))).foldl FVal.add (FVal.fin 0)

/-- The error condition of the smoothing stage. -/
inductive SmoothError where
  | invalidParameter
  deriving DecidableEq

/-- Modelled from the spec: `LCParser.filter_peaks` delegates to
`scipy.signal.savgol_filter`, an external library whose source is not part
of this repository, so its parameter validation is modelled from the
spec's constraints: `window` must be odd and `≤ N`, and
`polyorder < window`; otherwise the call fails with an `InvalidParameter`
condition.  Only the validation is modelled — the claims do not concern
the smoothed numeric output. -/
def filter_peaks_check (values : List ℚ) (window polyorder : ℕ) : Except SmoothError Unit :=
  if window % 2 = 0 ∨ values.length < window ∨ window ≤ polyorder then
    Except.error SmoothError.invalidParameter
  else
    Except.ok ()

/-- What a Python attribute access on the parser can produce here: the
`times` series, or a bound method object. -/
inductive PyAttr where
  | seriesVal : List ℚ → PyAttr
  | methodObj : PyAttr
  deriving DecidableEq

/-- The parsed state of an `LCParser` instance: the two series carved out
of `raw_data` by `parse`. -/
structure LCParserState where
  times : List ℚ
  values : List ℚ

/-- `def get_times(self): return self.get_times` — the accessor returns
the bound method attribute `self.get_times` itself, for every state of
the parser; it never reads `self.times`. -/
def get_times (_s : LCParserState) : PyAttr :=
  PyAttr.methodObj

end LCParser

namespace LCParser

/-! ## Helper lemmas -/

/-- Full evaluation of `__findpeaks__` on the scenario-A series: the two
descents are settled by kernel computation (they contain only
comparisons) and the baseline-corrected heights by `simp`. -/
theorem scenarioA_peaks :
    findpeaks [0, 0, 1, 3, 1, 0, 0, 3, 5, 3, 0, 0] 0 =
      [⟨some 1, some 5, 3, 3⟩, ⟨some 6, some 10, 5, 8⟩] := by
  have h1 : prunedCandidates [0, 0, 1, 3, 1, 0, 0, 3, 5, 3, 0, 0] 0 = [3, 8] := by decide
  have h2 : descendLeft [0, 0, 1, 3, 1, 0, 0, 3, 5, 3, 0, 0] 3 3 none = (0, some 1) := by decide
  have h3 : descendRightAux [0, 0, 1, 3, 1, 0, 0, 3, 5, 3, 0, 0] 9 3 3 none = (0, some 5) := by
    decide
  have h4 : descendLeft [0, 0, 1, 3, 1, 0, 0, 3, 5, 3, 0, 0] 8 5 none = (0, some 6) := by decide
  have h5 : descendRightAux [0, 0, 1, 3, 1, 0, 0, 3, 5, 3, 0, 0] 4 8 5 none = (0, some 10) := by
    decide
  simp [findpeaks, mkRecord, h1, h2, h3, h4, h5, pymax]

/-- Evaluation of the scenario-C integral on the peaks the engine actually
returns: spans `(1,5)` and `(6,10)` give areas `5` and `11`. -/
theorem scenarioC_eval :
    elution_volume [0, 0, 1, 3, 1, 0, 0, 3, 5, 3, 0, 0] [0, 1, 2, 3, 4, 5, 6, 7, 8, 9, 10, 11]
      (peakSpans (findpeaks [0, 0, 1, 3, 1, 0, 0, 3, 5, 3, 0, 0] 0)) = 16 := by
  rw [scenarioA_peaks]
  norm_num [peakSpans, elution_volume, peakArea, pyPrev, pymax, List.range_succ]

/-- Evaluation of the engine on the minimal single-peak series `[0,1,0]`. -/
theorem findpeaks_simple : findpeaks [0, 1, 0] 0 = [⟨some 0, some 2, 1, 1⟩] := by
  have h1 : prunedCandidates [0, 1, 0] 0 = [1] := by decide
  have h2 : descendLeft [0, 1, 0] 1 1 none = (0, some 0) := by decide
  have h3 : descendRightAux [0, 1, 0] 2 1 1 none = (0, some 2) := by decide
  norm_num [findpeaks, mkRecord, h1, h2, h3, pymax]

/-- The candidate list is strictly ascending. -/
theorem candidates_pairwise (values : List ℚ) (h : ℚ) :
    List.Pairwise (· < ·) (candidates values h) :=
  (List.pairwise_lt_range values.length).filter _

/-- If 0 is a candidate it is the head of the candidate list and appears
nowhere else. -/
theorem candidates_zero_head {values : List ℚ} {h : ℚ} (h0 : 0 ∈ candidates values h) :
    ∃ t, candidates values h = 0 :: t ∧ 0 ∉ t := by
  have hp := candidates_pairwise values h
  cases hc : candidates values h with
  | nil => rw [hc] at h0; cases h0
  | cons a t =>
    rw [hc] at h0 hp
    rw [List.pairwise_cons] at hp
    rcases List.mem_cons.mp h0 with h0 | h0
    · refine ⟨t, by rw [← h0], fun hmem => ?_⟩
      exact absurd (hp.1 0 hmem) (by omega)
    · exact absurd (hp.1 0 h0) (by omega)

/-- Every index surviving boundary removal is a candidate and is neither 0
nor the last index. -/
theorem mem_pruned {values : List ℚ} {h : ℚ} {p : ℕ} (hp : p ∈ prunedCandidates values h) :
    p ∈ candidates values h ∧ p ≠ 0 ∧ p ≠ values.length - 1 := by
  unfold prunedCandidates at hp
  by_cases hlast : values.length - 1 ∈ candidatesNoZero values h
  · rw [if_pos hlast] at hp
    cases hp
  · rw [if_neg hlast] at hp
    unfold candidatesNoZero at hp hlast
    by_cases h0 : 0 ∈ candidates values h
    · rw [if_pos h0] at hp hlast
      obtain ⟨t, ht, h0t⟩ := candidates_zero_head h0
      rw [ht, List.drop_one, List.tail_cons] at hp hlast
      exact ⟨ht ▸ List.mem_cons_of_mem 0 hp, fun hne => h0t (hne ▸ hp),
        fun hne => hlast (hne ▸ hp)⟩
    · rw [if_neg h0] at hp hlast
      exact ⟨hp, fun hne => h0 (hne ▸ hp), fun hne => hlast (hne ▸ hp)⟩

/-- Unpacking `is_peak` for a surviving interior index: strict rises on
both sides, position bounds, and the height cutoff. -/
theorem mem_candidates_facts {values : List ℚ} {h : ℚ} {p : ℕ}
    (hc : p ∈ candidates values h) (h0 : p ≠ 0) (hl : p ≠ values.length - 1) :
    1 ≤ p ∧ p + 1 ≤ values.length - 1 ∧
      values.getD (p - 1) 0 < values.getD p 0 ∧
      values.getD (p + 1) 0 < values.getD p 0 ∧ h < values.getD p 0 := by
  rw [candidates, List.mem_filter, List.mem_range] at hc
  obtain ⟨hlt, hpk⟩ := hc
  rw [is_peak, Bool.and_eq_true, Bool.and_eq_true, Bool.or_eq_true, Bool.or_eq_true] at hpk
  simp only [decide_eq_true_eq] at hpk
  obtain ⟨⟨hL, hR⟩, hH⟩ := hpk
  refine ⟨by omega, by omega, ?_, ?_, hH⟩
  · rcases hL with hL | hL
    · exact absurd hL h0
    · exact hL
  · rcases hR with hR | hR
    · exact absurd hR hl
    · exact hR

/-- The leftward descent started with a recorded threshold keeps one, and
the recorded index can only move down. -/
theorem descendLeft_some (values : List ℚ) :
    ∀ (left : ℕ) (minL : ℚ) (l0 : ℕ),
      ∃ l, (descendLeft values left minL (some l0)).2 = some l ∧ (l = l0 ∨ l ≤ left) := by
  intro left
  induction left with
  | zero =>
    intro minL l0
    rw [descendLeft]
    by_cases h1 : values.getD 0 0 ≤ minL
    · rw [if_pos h1]
      by_cases h2 : values.getD 0 0 < minL
      · rw [if_pos h2]; exact ⟨0, rfl, Or.inr le_rfl⟩
      · rw [if_neg h2]; exact ⟨l0, rfl, Or.inl rfl⟩
    · rw [if_neg h1]; exact ⟨l0, rfl, Or.inl rfl⟩
  | succ n ih =>
    intro minL l0
    rw [descendLeft]
    by_cases h1 : values.getD (n + 1) 0 ≤ minL
    · rw [if_pos h1]
      by_cases h2 : values.getD (n + 1) 0 < minL
      · rw [if_pos h2]
        obtain ⟨l, hl, hle⟩ := ih (values.getD (n + 1) 0) (n + 1)
        exact ⟨l, hl, Or.inr (by omega)⟩
      · rw [if_neg h2]
        obtain ⟨l, hl, hle⟩ := ih minL l0
        exact ⟨l, hl, by omega⟩
    · rw [if_neg h1]; exact ⟨l0, rfl, Or.inl rfl⟩

/-- From a surviving peak the leftward descent always records a threshold,
bounded by the peak index. -/
theorem descendLeft_from_peak (values : List ℚ) (p : ℕ) (hp : 1 ≤ p)
    (hlt : values.getD (p - 1) 0 < values.getD p 0) :
    ∃ l, (descendLeft values p (values.getD p 0) none).2 = some l ∧ l ≤ p := by
  obtain ⟨q, rfl⟩ : ∃ q, p = q + 1 := ⟨p - 1, by omega⟩
  rw [descendLeft, if_pos le_rfl, if_neg (lt_irrefl _)]
  have hq : values.getD q 0 < values.getD (q + 1) 0 := by
    simpa using hlt
  cases q with
  | zero =>
    rw [descendLeft, if_pos hq.le, if_pos hq]
    exact ⟨0, rfl, by omega⟩
  | succ r =>
    rw [descendLeft, if_pos hq.le, if_pos hq]
    obtain ⟨l, hl, hle⟩ := descendLeft_some values r (values.getD (r + 1) 0) (r + 1)
    exact ⟨l, hl, by omega⟩

/-- The rightward descent started with a recorded threshold keeps one, and
the recorded index stays below `right + fuel`. -/
theorem descendRight_some (values : List ℚ) :
    ∀ (fuel right : ℕ) (minR : ℚ) (r0 : ℕ),
      ∃ r, (descendRightAux values fuel right minR (some r0)).2 = some r ∧
        (r = r0 ∨ (right ≤ r ∧ r < right + fuel)) := by
  intro fuel
  induction fuel with
  | zero =>
    intro right minR r0
    rw [descendRightAux]
    exact ⟨r0, rfl, Or.inl rfl⟩
  | succ n ih =>
    intro right minR r0
    rw [descendRightAux]
    by_cases h1 : values.getD right 0 ≤ minR
    · rw [if_pos h1]
      by_cases h2 : values.getD right 0 < minR
      · rw [if_pos h2]
        obtain ⟨r, hr, hle⟩ := ih (right + 1) (values.getD right 0) right
        exact ⟨r, hr, Or.inr (by omega)⟩
      · rw [if_neg h2]
        obtain ⟨r, hr, hle⟩ := ih (right + 1) minR r0
        exact ⟨r, hr, by omega⟩
    · rw [if_neg h1]; exact ⟨r0, rfl, Or.inl rfl⟩

/-- From a surviving peak the rightward descent always records a
threshold, between the peak index and the last index. -/
theorem descendRight_from_peak (values : List ℚ) (p : ℕ)
    (hp : p + 1 ≤ values.length - 1)
    (hlt : values.getD (p + 1) 0 < values.getD p 0) :
    ∃ r, (descendRightAux values (values.length - p) p (values.getD p 0) none).2 = some r ∧
      p ≤ r ∧ r ≤ values.length - 1 := by
  have hN : p + 2 ≤ values.length := by omega
  obtain ⟨g, hg⟩ : ∃ g, values.length - p = g + 2 := ⟨values.length - p - 2, by omega⟩
  rw [hg, descendRightAux, if_pos le_rfl, if_neg (lt_irrefl _),
    descendRightAux, if_pos hlt.le, if_pos hlt]
  obtain ⟨r, hr, hle⟩ := descendRight_some values g (p + 1 + 1) (values.getD (p + 1) 0) (p + 1)
  exact ⟨r, hr, by omega⟩

/-- Projections of `mkRecord`. -/
theorem mkRecord_peakIndex (values : List ℚ) (p : ℕ) : (mkRecord values p).peakIndex = p := rfl

theorem mkRecord_left (values : List ℚ) (p : ℕ) :
    (mkRecord values p).leftThreshold = (descendLeft values p (values.getD p 0) none).2 := rfl

theorem mkRecord_right (values : List ℚ) (p : ℕ) :
    (mkRecord values p).rightThreshold =
      (descendRightAux values (values.length - p) p (values.getD p 0) none).2 := rfl

/-- Adjacent-entry monotonicity, `getD` form. -/
theorem chain'_le_getD {l : List ℚ} (h : List.Chain' (· ≤ ·) l) {j : ℕ}
    (h1 : 1 ≤ j) (h2 : j < l.length) : l.getD (j - 1) 0 ≤ l.getD j 0 := by
  have hget := List.chain'_iff_get.mp h (j - 1) (by omega)
  rw [List.getD_eq_getElem l 0 (by omega : j - 1 < l.length),
    List.getD_eq_getElem l 0 h2]
  have hj : j - 1 + 1 = j := by omega
  simpa [List.get_eq_getElem, hj] using hget

/-- NaN absorbs on the right of `FVal.add`. -/
theorem FVal.add_nan_right (a : FVal) : FVal.add a FVal.nan = FVal.nan := by
  cases a <;> rfl

/-- NaN absorbs on the left of `FVal.add`. -/
theorem FVal.add_nan_left (a : FVal) : FVal.add FVal.nan a = FVal.nan := by
  cases a <;> rfl

/-- NaN absorbs on the right of `FVal.mul`. -/
theorem FVal.mul_nan_right (a : FVal) : FVal.mul a FVal.nan = FVal.nan := by
  cases a <;> rfl

/-- NaN absorbs on the right of `FVal.sub`. -/
theorem FVal.sub_nan_right (a : FVal) : FVal.sub a FVal.nan = FVal.nan := by
  cases a <;> rfl

/-- NaN absorbs on the left of `FVal.sub`. -/
theorem FVal.sub_nan_left (a : FVal) : FVal.sub FVal.nan a = FVal.nan := by
  cases a <;> rfl

/-- A NaN term anywhere in a float accumulation poisons the result. -/
theorem foldl_add_nan (l : List FVal) :
    ∀ acc : FVal, (FVal.nan ∈ l ∨ acc = FVal.nan) → l.foldl FVal.add acc = FVal.nan := by
  induction l with
  | nil =>
    intro acc h
    rcases h with h | h
    · cases h
    · simpa using h
  | cons x xs ih =>
    intro acc h
    rw [List.foldl_cons]
    rcases h with h | h
    · rcases List.mem_cons.mp h with h | h
      · exact ih _ (Or.inr (h ▸ FVal.add_nan_right acc))
      · exact ih _ (Or.inl h)
    · exact ih _ (Or.inr (h ▸ FVal.add_nan_left x))

end LCParser

namespace LCParser

/-! ## Claim theorems -/

/-- C1: on the raw series `[0,0,1,3,1,0,0,3,5,3,0,0]` with `minHeight = 0`,
`__findpeaks__` returns exactly two peaks, with `peakIndex` 3 and 8 and
baseline-corrected heights 3 and 5 (their thresholds are `(1,5)` and
`(6,10)`). -/
theorem findpeaks_scenarioA :
    findpeaks [0, 0, 1, 3, 1, 0, 0, 3, 5, 3, 0, 0] 0 =
      [⟨some 1, some 5, 3, 3⟩, ⟨some 6, some 10, 5, 8⟩] :=
  scenarioA_peaks

/-- C2 counterexample: with `times = [0..11]`, the scenario-A values and
the peak set the engine actually produces, `elution_volume` does not
return 15: the engine's left thresholds are 1 and 6 (not the spec's 2 and
6–9 spans), so the integral is 16. -/
theorem elution_scenarioC_ne_15 :
    elution_volume [0, 0, 1, 3, 1, 0, 0, 3, 5, 3, 0, 0] [0, 1, 2, 3, 4, 5, 6, 7, 8, 9, 10, 11]
      (peakSpans (findpeaks [0, 0, 1, 3, 1, 0, 0, 3, 5, 3, 0, 0] 0)) ≠ 15 := by
  rw [scenarioC_eval]
  norm_num

/-- C2 amended: the integral over the detected peaks of scenario A is
exactly 16 (areas 5 over span `[1,5)` and 11 over span `[6,10)`). -/
theorem elution_scenarioC_eq_16 :
    elution_volume [0, 0, 1, 3, 1, 0, 0, 3, 5, 3, 0, 0] [0, 1, 2, 3, 4, 5, 6, 7, 8, 9, 10, 11]
      (peakSpans (findpeaks [0, 0, 1, 3, 1, 0, 0, 3, 5, 3, 0, 0] 0)) = 16 :=
  scenarioC_eval

/-- C3 counterexample: on `[0,1,1,0]` with `minHeight = 0` at the interior
index 1, the spec's candidate condition with ties (`>=` on both sides,
`> minHeight`) holds, yet the engine does not select index 1: its
comparisons are strict, so the tie `values[1] = values[2]` disqualifies
it. -/
theorem candidate_tie_refuted :
    ¬ (1 ∈ candidates [0, 1, 1, 0] 0 ↔
       (([0, 1, 1, 0] : List ℚ).getD 0 0 ≤ ([0, 1, 1, 0] : List ℚ).getD 1 0 ∧
        ([0, 1, 1, 0] : List ℚ).getD 2 0 ≤ ([0, 1, 1, 0] : List ℚ).getD 1 0 ∧
        (0 : ℚ) < ([0, 1, 1, 0] : List ℚ).getD 1 0)) := by
  decide

/-- C3 amended: an interior index `1 <= i <= N-2` is selected as a peak
candidate iff `values[i-1] < values[i]`, `values[i+1] < values[i]` and
`minHeight < values[i]` — strict comparisons on both sides, so ties with a
neighbor are rejected. -/
theorem candidate_iff_strict (values : List ℚ) (mh : ℚ) (i : ℕ)
    (h1 : 1 ≤ i) (h2 : i ≤ values.length - 2) :
    i ∈ candidates values mh ↔
      (values.getD (i - 1) 0 < values.getD i 0 ∧
       values.getD (i + 1) 0 < values.getD i 0 ∧ mh < values.getD i 0) := by
  have hN : i + 2 ≤ values.length := by omega
  rw [candidates, List.mem_filter, List.mem_range, is_peak]
  simp only [Bool.and_eq_true, Bool.or_eq_true, decide_eq_true_eq]
  constructor
  · rintro ⟨-, ⟨h0 | hL, hl | hR⟩, hH⟩
    · exact absurd h0 (by omega)
    · exact absurd h0 (by omega)
    · exact absurd hl (by omega)
    · exact ⟨hL, hR, hH⟩
  · rintro ⟨hL, hR, hH⟩
    exact ⟨by omega, ⟨Or.inr hL, Or.inr hR⟩, hH⟩

/-- C3 witness: instance of the amended candidate characterisation on
`[0,1,0]` at index 1. -/
theorem candidate_iff_strict_witness :
    1 ≤ 1 ∧ 1 ≤ ([0, 1, 0] : List ℚ).length - 2 ∧
    (1 ∈ candidates [0, 1, 0] 0 ↔
      (([0, 1, 0] : List ℚ).getD 0 0 < ([0, 1, 0] : List ℚ).getD 1 0 ∧
       ([0, 1, 0] : List ℚ).getD 2 0 < ([0, 1, 0] : List ℚ).getD 1 0 ∧
       (0 : ℚ) < ([0, 1, 0] : List ℚ).getD 1 0)) :=
  ⟨le_rfl, by decide, candidate_iff_strict [0, 1, 0] 0 1 le_rfl (by decide)⟩

/-- C4: every record returned by `__findpeaks__` has both threshold slots
written, with `0 ≤ leftThreshold ≤ peakIndex ≤ rightThreshold ≤ N-1`. -/
theorem findpeaks_threshold_containment (values : List ℚ) (h : ℚ) (rec : PeakRecord)
    (hrec : rec ∈ findpeaks values h) :
    ∃ l r, rec.leftThreshold = some l ∧ rec.rightThreshold = some r ∧
      l ≤ rec.peakIndex ∧ rec.peakIndex ≤ r ∧ r ≤ values.length - 1 := by
  rw [findpeaks, List.mem_map] at hrec
  obtain ⟨p, hp, rfl⟩ := hrec
  obtain ⟨hc, h0, hl⟩ := mem_pruned hp
  obtain ⟨hp1, hp2, hL, hR, _⟩ := mem_candidates_facts hc h0 hl
  obtain ⟨l, hdl, hdle⟩ := descendLeft_from_peak values p hp1 hL
  obtain ⟨r, hdr, hdr1, hdr2⟩ := descendRight_from_peak values p hp2 hR
  exact ⟨l, r, by rw [mkRecord_left, hdl], by rw [mkRecord_right, hdr],
    by rw [mkRecord_peakIndex]; exact hdle,
    by rw [mkRecord_peakIndex]; exact hdr1, hdr2⟩

/-- C4 witness: threshold containment for the single peak detected on
`[0,1,0]`. -/
theorem findpeaks_threshold_containment_witness :
    ∃ l r, (⟨some 0, some 2, 1, 1⟩ : PeakRecord).leftThreshold = some l ∧
      (⟨some 0, some 2, 1, 1⟩ : PeakRecord).rightThreshold = some r ∧
      l ≤ (⟨some 0, some 2, 1, 1⟩ : PeakRecord).peakIndex ∧
      (⟨some 0, some 2, 1, 1⟩ : PeakRecord).peakIndex ≤ r ∧
      r ≤ ([0, 1, 0] : List ℚ).length - 1 :=
  findpeaks_threshold_containment [0, 1, 0] 0 ⟨some 0, some 2, 1, 1⟩
    (by rw [findpeaks_simple]; exact List.mem_singleton.mpr rfl)

/-- C5: no record returned by `__findpeaks__` sits on the series
boundary. -/
theorem findpeaks_no_boundary (values : List ℚ) (h : ℚ) (rec : PeakRecord)
    (hrec : rec ∈ findpeaks values h) :
    rec.peakIndex ≠ 0 ∧ rec.peakIndex ≠ values.length - 1 := by
  rw [findpeaks, List.mem_map] at hrec
  obtain ⟨p, hp, rfl⟩ := hrec
  obtain ⟨_, h0, hl⟩ := mem_pruned hp
  exact ⟨by rw [mkRecord_peakIndex]; exact h0, by rw [mkRecord_peakIndex]; exact hl⟩

/-- C5 witness: the single peak detected on `[0,1,0]` sits at index 1,
not on a boundary. -/
theorem findpeaks_no_boundary_witness :
    (⟨some 0, some 2, 1, 1⟩ : PeakRecord).peakIndex ≠ 0 ∧
    (⟨some 0, some 2, 1, 1⟩ : PeakRecord).peakIndex ≠ ([0, 1, 0] : List ℚ).length - 1 :=
  findpeaks_no_boundary [0, 1, 0] 0 ⟨some 0, some 2, 1, 1⟩
    (by rw [findpeaks_simple]; exact List.mem_singleton.mpr rfl)

/-- C6 counterexample: `values = [1,2,1]`, strictly increasing
`times = [0,1,10]`, and the peak set the engine itself produces (one peak
with left threshold 0): the first loop iteration multiplies `values[0]`
by `times[0] - times[-1] = -10` (Python negative-index wrap-around), so
the integral is `-8 < 0`. -/
theorem elution_negative_on_monotone_times :
    List.Chain' (· ≤ ·) ([0, 1, 10] : List ℚ) ∧
    elution_volume [1, 2, 1] [0, 1, 10] (peakSpans (findpeaks [1, 2, 1] 0)) < 0 := by
  constructor
  · norm_num [List.chain'_cons]
  · have h : findpeaks [1, 2, 1] 0 = [⟨some 0, some 2, 1, 1⟩] := by
      have h1 : prunedCandidates [1, 2, 1] 0 = [1] := by decide
      have h2 : descendLeft [1, 2, 1] 1 2 none = (1, some 0) := by decide
      have h3 : descendRightAux [1, 2, 1] 2 1 2 none = (1, some 2) := by decide
      norm_num [findpeaks, mkRecord, h1, h2, h3, pymax]
    rw [h]
    norm_num [peakSpans, elution_volume, peakArea, pyPrev, pymax, List.range_succ]

/-- C6 amended: for equal-length series with non-decreasing `times`,
`elution_volume` is non-negative over every span list whose left
thresholds are all at least 1 (so that the wrap-around access
`times[-1]` of the `leftThreshold = 0` case is never taken): each term is
a clamped value times a non-negative time delta. -/
theorem elution_volume_nonneg (values times : List ℚ) (spans : List (ℕ × ℕ))
    (hlen : times.length = values.length)
    (hmono : List.Chain' (· ≤ ·) times)
    (hleft : ∀ s ∈ spans, 1 ≤ s.1) :
    0 ≤ elution_volume values times spans := by
  rw [elution_volume]
  apply List.sum_nonneg
  intro x hx
  rw [List.mem_map] at hx
  obtain ⟨s, hs, rfl⟩ := hx
  rw [peakArea]
  apply List.sum_nonneg
  intro y hy
  rw [List.mem_map] at hy
  obtain ⟨idx, hidx, rfl⟩ := hy
  rw [List.mem_range] at hidx
  have hs1 := hleft s hs
  have hj : s.1 + idx < values.length := by
    have := min_le_right s.2 values.length
    omega
  apply mul_nonneg
  · rw [pymax]
    split
    · exact le_rfl
    · next hv => exact le_of_not_lt hv
  · rw [pyPrev, if_neg (by omega : ¬ s.1 + idx = 0), sub_nonneg]
    exact chain'_le_getD hmono (by omega) (by omega)

/-- C6 witness: the amended non-negativity at `values = [0,1,0]`,
`times = [0,1,2]`, span list `[(1,2)]`. -/
theorem elution_volume_nonneg_witness :
    ([0, 1, 2] : List ℚ).length = ([0, 1, 0] : List ℚ).length ∧
    List.Chain' (· ≤ ·) ([0, 1, 2] : List ℚ) ∧
    (∀ s ∈ [((1 : ℕ), (2 : ℕ))], 1 ≤ s.1) ∧
    0 ≤ elution_volume [0, 1, 0] [0, 1, 2] [(1, 2)] :=
  ⟨rfl, by norm_num [List.chain'_cons], by decide,
    elution_volume_nonneg [0, 1, 0] [0, 1, 2] [(1, 2)] rfl
      (by norm_num [List.chain'_cons]) (by decide)⟩

/-- C7 counterexample: with a missing (`NaN`) time inside the peak span,
`elution_volume` does not fail: it is a total function that returns the
NaN value (the missing entry silently propagates through the sum), and no
`MissingTimeData` error condition exists anywhere in its code path. -/
theorem elution_missing_time_no_error :
    elution_volumeF [FVal.fin 0, FVal.fin 1, FVal.fin 0]
      [FVal.fin 0, FVal.nan, FVal.fin 2] [(1, 2)] = FVal.nan := by
  decide

/-- C7 amended: `elution_volume` performs no missing-data check; whenever
some span makes the loop read a NaN time (directly or through the
predecessor access), the returned total is NaN rather than an error or a
meaningful number. -/
theorem elution_volumeF_nan (values times : List FVal) (spans : List (ℕ × ℕ))
    (hx : ∃ s ∈ spans, ∃ idx, idx < min s.2 values.length - s.1 ∧
        (times.getD (s.1 + idx) FVal.nan = FVal.nan ∨
         pyPrevF times (s.1 + idx) = FVal.nan)) :
    elution_volumeF values times spans = FVal.nan := by
  obtain ⟨s, hs, idx, hidx, hnan⟩ := hx
  rw [elution_volumeF]
  apply foldl_add_nan
  left
  rw [List.mem_map]
  refine ⟨s, hs, ?_⟩
  rw [peakAreaF]
  apply foldl_add_nan
  left
  rw [List.mem_map]
  refine ⟨idx, List.mem_range.mpr hidx, ?_⟩
  rcases hnan with hnan | hnan
  · rw [hnan, FVal.sub_nan_left, FVal.mul_nan_right]
  · rw [hnan, FVal.sub_nan_right, FVal.mul_nan_right]

/-- C7 witness: NaN propagation through the predecessor access
`times[left+idx-1]` on a concrete input. -/
theorem elution_volumeF_nan_witness :
    elution_volumeF [FVal.fin 0, FVal.fin 1, FVal.fin 0]
      [FVal.nan, FVal.fin 1, FVal.fin 2] [(1, 3)] = FVal.nan :=
  elution_volumeF_nan [FVal.fin 0, FVal.fin 1, FVal.fin 0]
    [FVal.nan, FVal.fin 1, FVal.fin 2] [(1, 3)]
    ⟨(1, 3), List.mem_singleton.mpr rfl, 0, by decide, Or.inr rfl⟩

/-- C8: any parameter set violating the smoothing constraints — even
`window`, `window > N`, or `polyorder >= window` — fails with
`InvalidParameter`; in particular an even window is rejected, never
rounded. -/
theorem filter_peaks_invalid (values : List ℚ) (window polyorder : ℕ)
    (h : window % 2 = 0 ∨ values.length < window ∨ window ≤ polyorder) :
    filter_peaks_check values window polyorder =
      Except.error SmoothError.invalidParameter := by
  rw [filter_peaks_check, if_pos h]

/-- C8 witness: scenario D, `window = 4` (even) on the scenario-A series. -/
theorem filter_peaks_invalid_witness :
    (4 : ℕ) % 2 = 0 ∧
    filter_peaks_check [0, 0, 1, 3, 1, 0, 0, 3, 5, 3, 0, 0] 4 1 =
      Except.error SmoothError.invalidParameter :=
  ⟨rfl, filter_peaks_invalid [0, 0, 1, 3, 1, 0, 0, 3, 5, 3, 0, 0] 4 1 (Or.inl rfl)⟩

/-- C9: if the last index qualifies as a candidate
(`values[N-1] > values[N-2]` and `values[N-1] > minHeight`), the buggy
boundary-removal step `np.delete(len(values)-1, 0)` replaces the whole
candidate array by an empty one, so `__findpeaks__` returns no peaks at
all — interior peaks included. -/
theorem findpeaks_last_boundary_empties (values : List ℚ) (h : ℚ)
    (hN : 2 ≤ values.length)
    (hrise : values.getD (values.length - 2) 0 < values.getD (values.length - 1) 0)
    (hht : h < values.getD (values.length - 1) 0) :
    findpeaks values h = [] := by
  have hmem : values.length - 1 ∈ candidates values h := by
    rw [candidates, List.mem_filter, List.mem_range]
    refine ⟨by omega, ?_⟩
    rw [is_peak]
    have hidx : values.length - 1 - 1 = values.length - 2 := by omega
    simp only [hidx, Bool.and_eq_true, Bool.or_eq_true, decide_eq_true_eq]
    refine ⟨⟨Or.inr hrise, Or.inl ?_⟩, hht⟩
    trivial
  have hmem1 : values.length - 1 ∈ candidatesNoZero values h := by
    unfold candidatesNoZero
    by_cases h0 : 0 ∈ candidates values h
    · obtain ⟨t, ht, h0t⟩ := candidates_zero_head h0
      have hmem' : values.length - 1 ∈ t := by
        have hmem2 := hmem
        rw [ht] at hmem2
        rcases List.mem_cons.mp hmem2 with h' | h'
        · omega
        · exact h'
      rw [if_pos h0, ht, List.drop_one, List.tail_cons]
      exact hmem'
    · rw [if_neg h0]
      exact hmem
  unfold findpeaks prunedCandidates
  rw [if_pos hmem1]
  rfl

/-- C9 witness: `[0,1,2]` rises into its last index, so detection returns
nothing. -/
theorem findpeaks_last_boundary_empties_witness :
    2 ≤ ([0, 1, 2] : List ℚ).length ∧
    ([0, 1, 2] : List ℚ).getD 1 0 < ([0, 1, 2] : List ℚ).getD 2 0 ∧
    (0 : ℚ) < ([0, 1, 2] : List ℚ).getD 2 0 ∧
    findpeaks [0, 1, 2] 0 = [] :=
  ⟨by decide, by decide, by decide,
    findpeaks_last_boundary_empties [0, 1, 2] 0 (by decide) (by decide) (by decide)⟩

/-- C10: for every parser state, the `get_times` accessor returns the
bound method object itself (`self.get_times`), never the `times` series,
so no caller can obtain the times through it. -/
theorem get_times_returns_method (s : LCParserState) :
    get_times s = PyAttr.methodObj ∧ ∀ ts : List ℚ, get_times s ≠ PyAttr.seriesVal ts :=
  ⟨rfl, fun _ts hts => PyAttr.noConfusion hts⟩

end LCParser
